import Mathlib

/-
  Verification of SyConn against its specification.

  Shallow embedding of the parts of the code base the claims are about:
  * syconn/reps/segmentation_helper.py       (glia_pred_so, save_voxels, load_voxels)
  * syconn_deprecated/processing/contact_sites_helper.py
                                             (detect_cs, kernel, process_block,
                                              process_block_nonzero)
  * syconn/processing/axoness.py             (majority_processes, grow_out_soma)
  * syconn_deprecated/processing/mapper.py   (calc_syn_dict)
  * syconn/batchjob_scripts/batchjob_calculate_spinehead_volume.py

  Conventions: numpy integer arrays are embedded as functions from index
  tuples, float quantities as exact rationals (ℚ).  The one place where a
  claim hinges on IEEE-754 double semantics, `int(len(preds) * 0.7)` in
  glia_pred_so, is embedded bit-exactly (`pyIntMul07` below).
-/

namespace SegmentationHelper

/-- Numerator of the IEEE-754 double closest to the Python literal `0.7`:
the double `0.7` is exactly `3152519739159347 / 2 ^ 52`. -/
def float07Num : ℕ := 3152519739159347

/-- Number of binary digits of `n` (0 for 0), computed with explicit fuel so
that it reduces inside the kernel. -/
def bitlenAux : ℕ → ℕ → ℕ
  | 0, _ => 0
  | fuel + 1, n => if n = 0 then 0 else bitlenAux fuel (n / 2) + 1

def bitlen (n : ℕ) : ℕ := bitlenAux n n

/-- Round a natural number to 53 significant binary digits, ties to even.
This is exactly the mantissa rounding IEEE-754 binary64 performs when the
real number `N / 2 ^ 52` (with `N = n * float07Num`, no exponent overflow)
is converted to the nearest double. -/
def roundSig53 (N : ℕ) : ℕ :=
  if N < 2 ^ 53 then N
  else
    let k := bitlen N - 53
    let q := N / 2 ^ k
    let r := N % 2 ^ k
    let half := 2 ^ (k - 1)
    if half < r ∨ (r = half ∧ q % 2 = 1) then (q + 1) * 2 ^ k
    else q * 2 ^ k

/-- The Python expression `int(n * 0.7)` under IEEE-754 double semantics:
the exact product `n * 0.7` is `(n * float07Num) / 2 ^ 52`; it is rounded to
the nearest double (53 significant bits, ties to even) and then truncated
towards zero. -/
def pyIntMul07 (n : ℕ) : ℕ := roundSig53 (n * float07Num) / 2 ^ 52

/-- glia_pred_so from syconn/reps/segmentation_helper.py.  `probas` is
column 1 of the cached `glia_probas` array, `thresh` the glia threshold.
Source:
  preds = np.array(so.attr_dict[pred_key][:, 1] > thresh, dtype=np.int)
  pred = np.mean(so.attr_dict[pred_key][:, 1]) > thresh
  if pred == 0: return 0
  glia_votes = np.sum(preds)
  if glia_votes > int(len(preds) * 0.7): return 1
  return 0
-/
def glia_pred_so (probas : List ℚ) (thresh : ℚ) : ℕ :=
  let preds : List ℕ := probas.map fun p => if thresh < p then 1 else 0
  if thresh < probas.sum / (probas.length : ℚ) then
    if pyIntMul07 preds.length < preds.sum then 1 else 0
  else 0

/-- The probability column of the C2 counterexample: 90 voxel samples, 63 of
them with glia probability 1 and 27 with probability 0. -/
def c2Probas : List ℚ := List.replicate 63 1 ++ List.replicate 27 0

/-- The per-sample glia votes of glia_pred_so for a probability column. -/
def gliaVotes (probas : List ℚ) (thresh : ℚ) : ℕ :=
  (probas.map fun p => if thresh < p then (1 : ℕ) else 0).sum

theorem gliaVotes_c2 : gliaVotes c2Probas 0 = 63 := by
  simp [gliaVotes, c2Probas, List.map_replicate]

theorem c2_sum : c2Probas.sum = 63 := by
  unfold c2Probas
  rw [List.sum_append, List.sum_replicate, List.sum_replicate]
  simp [nsmul_eq_mul]

theorem c2_len : c2Probas.length = 90 := by simp [c2Probas]

theorem c2_mean : c2Probas.sum / (c2Probas.length : ℚ) = 63 / 90 := by
  rw [c2_sum, c2_len]; norm_num

end SegmentationHelper

namespace SegmentationHelper

/-- Claim C2 (counterexample): with 90 samples, 63 of probability 1 and 27 of
probability 0, and threshold 0, glia_pred_so returns 1 although the number of
positive votes (63) does not exceed 70 percent of the sample count
(0.7 * 90 = 63): the claim demands 0 here, the code returns 1 because
`int(90 * 0.7)` evaluates to 62 under IEEE-754 double arithmetic. -/
theorem glia_pred_so_seventy_percent_cex :
    glia_pred_so c2Probas 0 = 1 ∧
    ¬ ((7 : ℚ) / 10 * (c2Probas.length : ℚ) < (gliaVotes c2Probas 0 : ℚ)) := by
  constructor
  · show glia_pred_so c2Probas 0 = 1
    have hm : c2Probas.sum / (c2Probas.length : ℚ) = 63 / 90 := c2_mean
    have hv : (c2Probas.map fun p => if (0 : ℚ) < p then (1 : ℕ) else 0).sum = 63 :=
      gliaVotes_c2
    unfold glia_pred_so
    dsimp only
    have hlen : (c2Probas.map fun p => if (0 : ℚ) < p then (1 : ℕ) else 0).length = 90 := by
      simp [c2Probas]
    rw [hm, hv, hlen]
    norm_num
    decide
  · rw [gliaVotes_c2]
    have : (c2Probas.length : ℚ) = 90 := by simp [c2Probas]
    rw [this]
    norm_num

/-- Claim C2 (amended): glia_pred_so returns 0 whenever the mean probability
is at most the threshold, regardless of the individual votes; it returns 1
exactly when the mean exceeds the threshold and the number of positive votes
exceeds `int(n * 0.7)` computed in IEEE-754 double arithmetic.  That cutoff
equals 7 for n = 10 (so 7 votes of 10 give 0 and 8 give 1, as the claim
says), but it is 62 rather than 63 for n = 90, so at n = 90 exactly 70
percent positive votes already return 1. -/
theorem glia_pred_so_spec (probas : List ℚ) (thresh : ℚ) (hn : probas ≠ []) :
    (probas.sum / (probas.length : ℚ) ≤ thresh → glia_pred_so probas thresh = 0) ∧
    (glia_pred_so probas thresh = 1 ↔
      thresh < probas.sum / (probas.length : ℚ) ∧
        pyIntMul07 probas.length < gliaVotes probas thresh) ∧
    pyIntMul07 10 = 7 ∧ pyIntMul07 90 = 62 := by
  refine ⟨?_, ?_, by decide, by decide⟩
  · intro hle
    unfold glia_pred_so
    rw [if_neg (not_lt.mpr hle)]
  · unfold glia_pred_so gliaVotes
    dsimp only
    rw [List.length_map]
    by_cases hmean : thresh < probas.sum / (probas.length : ℚ)
    · rw [if_pos hmean]
      by_cases hv : pyIntMul07 probas.length <
          (probas.map fun p => if thresh < p then (1 : ℕ) else 0).sum
      · rw [if_pos hv]
        simp [hmean, hv]
      · rw [if_neg hv]
        simp [hv]
    · rw [if_neg hmean]
      simp [hmean]

/-- Witness for glia_pred_so_spec at the one-sample input [1] with
threshold 0. -/
theorem glia_pred_so_spec_witness :
    (([(1 : ℚ)].sum / (([(1 : ℚ)].length : ℕ) : ℚ) ≤ 0 → glia_pred_so [1] 0 = 0) ∧
      (glia_pred_so [1] 0 = 1 ↔
        (0 : ℚ) < [(1 : ℚ)].sum / (([(1 : ℚ)].length : ℕ) : ℚ) ∧
          pyIntMul07 [(1 : ℚ)].length < gliaVotes [1] 0) ∧
      pyIntMul07 10 = 7 ∧ pyIntMul07 90 = 62) :=
  glia_pred_so_spec [1] 0 (by simp)

end SegmentationHelper

namespace SegmentationHelper

/-- A 3-d integer coordinate (numpy arrays of length 3). -/
abbrev Vec3 := ℤ × ℤ × ℤ

def vmin (a b : Vec3) : Vec3 := (min a.1 b.1, min a.2.1 b.2.1, min a.2.2 b.2.2)

def vmax (a b : Vec3) : Vec3 := (max a.1 b.1, max a.2.1 b.2.1, max a.2.2 b.2.2)

def vle (a b : Vec3) : Prop := a.1 ≤ b.1 ∧ a.2.1 ≤ b.2.1 ∧ a.2.2 ≤ b.2.2

instance : DecidablePred fun ab : Vec3 × Vec3 => vle ab.1 ab.2 := fun _ => by
  unfold vle; infer_instance

instance (a b : Vec3) : Decidable (vle a b) := by unfold vle; infer_instance

/-- One stored voxel block: a boolean mask `bin_arr` of shape `shape` laid at
absolute position `offset`.  `mask x y z` is only meaningful for indices
inside `shape`. -/
structure VxBlock where
  offset : Vec3
  shape : ℕ × ℕ × ℕ
  mask : ℕ → ℕ → ℕ → Bool

/-- `block_offsets[i] + bin_arrs[i].shape` of load_voxels. -/
def blockExtent (b : VxBlock) : Vec3 :=
  (b.offset.1 + b.shape.1, b.offset.2.1 + b.shape.2.1, b.offset.2.2 + b.shape.2.2)

/-- Whether the absolute coordinate `c` is a True voxel of block `b`. -/
def maskAbs (b : VxBlock) (c : Vec3) : Bool :=
  decide (b.offset.1 ≤ c.1) && decide (c.1 < b.offset.1 + b.shape.1) &&
  decide (b.offset.2.1 ≤ c.2.1) && decide (c.2.1 < b.offset.2.1 + b.shape.2.1) &&
  decide (b.offset.2.2 ≤ c.2.2) && decide (c.2.2 < b.offset.2.2 + b.shape.2.2) &&
  b.mask (c.1 - b.offset.1).toNat (c.2.1 - b.offset.2.1).toNat (c.2.2 - b.offset.2.2).toNat

/-- The VoxelDict: object id to the stored list of (bin_arr, offset) blocks. -/
def VoxelStore := ℕ → Option (List VxBlock)

def emptyStore : VoxelStore := fun _ => none

/-- save_voxels from syconn/reps/segmentation_helper.py:
  if so.id in voxel_dc and not overwrite: voxel_dc.append(so.id, bin_arr, offset)
  else: voxel_dc[so.id] = [bin_arr], [offset]
-/
def save_voxels (dc : VoxelStore) (i : ℕ) (b : VxBlock) (overwrite : Bool) : VoxelStore :=
  fun j =>
    if j = i then
      match dc i with
      | some blocks => if overwrite then some [b] else some (blocks ++ [b])
      | none => some [b]
    else dc j

/-- The result record of load_voxels: the cached bounding box
(`so._bounding_box`), the dense boolean volume spanning it (grid coordinates
relative to `bbmin`), and the cached voxel count (`so._size`). -/
structure LoadedVoxels where
  bbmin : Vec3
  bbmax : Vec3
  vox : ℕ → ℕ → ℕ → Bool
  size : ℕ

/-- The numpy fancy-index assignment
  voxels[box[0][0]:box[1][0], box[0][1]:box[1][1], box[0][2]:box[1][2]][bin_arr] = True
of load_voxels: set each grid cell whose absolute coordinate (grid position
plus `bbmin`) is a True voxel of block `b`; previously set cells stay True. -/
def layBlock (bbmin : Vec3) (v : ℕ → ℕ → ℕ → Bool) (b : VxBlock) : ℕ → ℕ → ℕ → Bool :=
  fun x y z => v x y z || maskAbs b (bbmin.1 + x, bbmin.2.1 + y, bbmin.2.2 + z)

/-- All index triples of a 3-d array shape, as a finite set. -/
def gridSet (d : ℕ × ℕ × ℕ) : Finset (ℕ × ℕ × ℕ) :=
  Finset.range d.1 ×ˢ Finset.range d.2.1 ×ˢ Finset.range d.2.2

/-- `np.sum(bin_arrs[i])`: the number of True entries of one stored mask. -/
def blockCount (b : VxBlock) : ℕ :=
  ((gridSet b.shape).filter fun p => b.mask p.1 p.2.1 p.2.2 = true).card

/-- load_voxels from syconn/reps/segmentation_helper.py.  Returns `none` for
an absent id (the source prints a diagnostic and returns -1).  For a present
id it computes the union bounding box (elementwise minimum of the block
offsets, elementwise maximum of the block extents), lays every block into a
dense boolean volume of that extent, and accumulates `so._size` as the sum of
the blocks' True-voxel counts.  A stored block list is never empty (save_voxels
always stores at least one block), so the nonempty match is the live one. -/
def load_voxels (dc : VoxelStore) (i : ℕ) : Option LoadedVoxels :=
  match dc i with
  | none => none
  | some [] => none
  | some (b0 :: bs) =>
    let bbmin := bs.foldl (fun m b => vmin m b.offset) b0.offset
    let bbmax := bs.foldl (fun m b => vmax m (blockExtent b)) (blockExtent b0)
    let vox := (b0 :: bs).foldl (layBlock bbmin) (fun _ _ _ => false)
    let size := (b0 :: bs).foldl (fun s b => s + blockCount b) 0
    some ⟨bbmin, bbmax, vox, size⟩

/-- The set of True-voxel absolute coordinates reconstructed by load_voxels:
grid cells of the dense volume that are True, translated by `bbmin`.  Membership
of `c` requires `bbmin ≤ c`; the dense volume is indexed by the (nonnegative)
difference. -/
def reconTrue (L : LoadedVoxels) (c : Vec3) : Prop :=
  vle L.bbmin c ∧
    L.vox (c.1 - L.bbmin.1).toNat (c.2.1 - L.bbmin.2.1).toNat (c.2.2 - L.bbmin.2.2).toNat = true

instance (L : LoadedVoxels) (c : Vec3) : Decidable (reconTrue L c) := by
  unfold reconTrue; infer_instance

/-- The store obtained by saving the blocks `bs`, in order, to object id `i`
(append semantics, no overwrite). -/
def saveAll (i : ℕ) (bs : List VxBlock) : VoxelStore :=
  bs.foldl (fun dc b => save_voxels dc i b false) emptyStore

theorem vle_refl (a : Vec3) : vle a a := ⟨le_refl _, le_refl _, le_refl _⟩

theorem vle_trans {a b c : Vec3} (h1 : vle a b) (h2 : vle b c) : vle a c :=
  ⟨le_trans h1.1 h2.1, le_trans h1.2.1 h2.2.1, le_trans h1.2.2 h2.2.2⟩

theorem vmin_le_left (a b : Vec3) : vle (vmin a b) a :=
  ⟨min_le_left _ _, min_le_left _ _, min_le_left _ _⟩

theorem vmin_le_right (a b : Vec3) : vle (vmin a b) b :=
  ⟨min_le_right _ _, min_le_right _ _, min_le_right _ _⟩

theorem le_vmax_left (a b : Vec3) : vle a (vmax a b) :=
  ⟨le_max_left _ _, le_max_left _ _, le_max_left _ _⟩

theorem le_vmax_right (a b : Vec3) : vle b (vmax a b) :=
  ⟨le_max_right _ _, le_max_right _ _, le_max_right _ _⟩

/-- The elementwise minimum fold of load_voxels is a lower bound of its seed
and of every folded value. -/
theorem foldl_vmin_le (g : VxBlock → Vec3) (bs : List VxBlock) (m : Vec3) :
    vle (bs.foldl (fun m b => vmin m (g b)) m) m ∧
      ∀ b ∈ bs, vle (bs.foldl (fun m b => vmin m (g b)) m) (g b) := by
  induction bs generalizing m with
  | nil => exact ⟨vle_refl m, by simp⟩
  | cons a rest ih =>
    have h := ih (vmin m (g a))
    refine ⟨vle_trans h.1 (vmin_le_left _ _), ?_⟩
    intro b hb
    rcases List.mem_cons.mp hb with rfl | hb
    · exact vle_trans h.1 (vmin_le_right _ _)
    · exact h.2 b hb

/-- The elementwise maximum fold of load_voxels is an upper bound of its seed
and of every folded value. -/
theorem foldl_vmax_ge (g : VxBlock → Vec3) (bs : List VxBlock) (m : Vec3) :
    vle m (bs.foldl (fun m b => vmax m (g b)) m) ∧
      ∀ b ∈ bs, vle (g b) (bs.foldl (fun m b => vmax m (g b)) m) := by
  induction bs generalizing m with
  | nil => exact ⟨vle_refl m, by simp⟩
  | cons a rest ih =>
    have h := ih (vmax m (g a))
    refine ⟨vle_trans (le_vmax_left _ _) h.1, ?_⟩
    intro b hb
    rcases List.mem_cons.mp hb with rfl | hb
    · exact vle_trans (le_vmax_right _ _) h.1
    · exact h.2 b hb

/-- Folding save_voxels (no overwrite) appends the saved blocks to an id's
existing list. -/
theorem save_fold (i : ℕ) (bs : List VxBlock) (dc : VoxelStore) (l : List VxBlock)
    (h : dc i = some l) :
    (bs.foldl (fun d b => save_voxels d i b false) dc) i = some (l ++ bs) := by
  induction bs generalizing dc l with
  | nil => simpa using h
  | cons b rest ih =>
    simp only [List.foldl_cons]
    have hstep : (save_voxels dc i b false) i = some (l ++ [b]) := by
      unfold save_voxels
      rw [if_pos rfl, h]
      rfl
    have := ih (save_voxels dc i b false) (l ++ [b]) hstep
    simpa using this

/-- After saving a nonempty sequence of blocks to a fresh id, the store holds
exactly that sequence at that id. -/
theorem saveAll_lookup (i : ℕ) (b0 : VxBlock) (bs : List VxBlock) :
    saveAll i (b0 :: bs) i = some (b0 :: bs) := by
  unfold saveAll
  simp only [List.foldl_cons]
  have h1 : (save_voxels emptyStore i b0 false) i = some [b0] := by
    unfold save_voxels emptyStore
    rw [if_pos rfl]
  simpa using save_fold i bs _ [b0] h1

/-- The dense volume built by folding layBlock is the union (boolean or) of
the blocks' True regions, read at the absolute coordinate of each grid cell. -/
theorem foldl_layBlock (bbmin : Vec3) (bs : List VxBlock) (v : ℕ → ℕ → ℕ → Bool)
    (x y z : ℕ) :
    (bs.foldl (layBlock bbmin) v) x y z =
      (v x y z ||
        bs.any fun b => maskAbs b (bbmin.1 + (x : ℤ), bbmin.2.1 + (y : ℤ), bbmin.2.2 + (z : ℤ))) := by
  induction bs generalizing v with
  | nil => simp
  | cons a rest ih =>
    simp only [List.foldl_cons, List.any_cons]
    rw [ih]
    simp [layBlock, Bool.or_assoc]

/-- A True voxel of a block lies between the block's offset and extent. -/
theorem maskAbs_bounds {b : VxBlock} {c : Vec3} (h : maskAbs b c = true) :
    vle b.offset c ∧ c.1 < (blockExtent b).1 ∧ c.2.1 < (blockExtent b).2.1 ∧
      c.2.2 < (blockExtent b).2.2 := by
  unfold maskAbs at h
  simp only [Bool.and_eq_true, decide_eq_true_eq] at h
  obtain ⟨⟨⟨⟨⟨⟨hA, hB⟩, hC⟩, hD⟩, hE⟩, hF⟩, _⟩ := h
  exact ⟨⟨hA, hC, hE⟩, hB, hD, hF⟩

end SegmentationHelper

namespace SegmentationHelper

/-- Claim C1: round-trip of the voxel store.  For every object id and every
nonempty sequence of saved blocks (a single block, or several blocks appended
to the same id), load_voxels succeeds and its reconstructed dense volume,
translated by the union bounding box minimum, holds exactly the absolute
coordinates of the True voxels of the saved blocks. -/
theorem load_after_save_roundtrip (i : ℕ) (b0 : VxBlock) (bs : List VxBlock) :
    ∃ L, load_voxels (saveAll i (b0 :: bs)) i = some L ∧
      ∀ c : Vec3, reconTrue L c ↔ ∃ b ∈ b0 :: bs, maskAbs b c = true := by
  have hlook := saveAll_lookup i b0 bs
  refine ⟨⟨bs.foldl (fun m b => vmin m b.offset) b0.offset,
      bs.foldl (fun m b => vmax m (blockExtent b)) (blockExtent b0),
      (b0 :: bs).foldl (layBlock (bs.foldl (fun m b => vmin m b.offset) b0.offset))
        (fun _ _ _ => false),
      (b0 :: bs).foldl (fun s b => s + blockCount b) 0⟩, ?_, ?_⟩
  · unfold load_voxels
    rw [hlook]
  · intro c
    set bbmin := bs.foldl (fun m b => vmin m b.offset) b0.offset with hbbmin
    constructor
    · rintro ⟨hle, hvox⟩
      dsimp only at hle hvox
      rw [foldl_layBlock] at hvox
      simp only [Bool.false_or, List.any_eq_true] at hvox
      obtain ⟨b, hb, hmask⟩ := hvox
      have e1 : bbmin.1 + (((c.1 - bbmin.1).toNat : ℕ) : ℤ) = c.1 := by
        rw [Int.toNat_of_nonneg (by linarith [hle.1])]; ring
      have e2 : bbmin.2.1 + (((c.2.1 - bbmin.2.1).toNat : ℕ) : ℤ) = c.2.1 := by
        rw [Int.toNat_of_nonneg (by linarith [hle.2.1])]; ring
      have e3 : bbmin.2.2 + (((c.2.2 - bbmin.2.2).toNat : ℕ) : ℤ) = c.2.2 := by
        rw [Int.toNat_of_nonneg (by linarith [hle.2.2])]; ring
      rw [e1, e2, e3] at hmask
      exact ⟨b, hb, hmask⟩
    · rintro ⟨b, hb, hmask⟩
      have hbnd := maskAbs_bounds hmask
      have hmin : vle bbmin b.offset := by
        rcases List.mem_cons.mp hb with rfl | hb
        · exact (foldl_vmin_le VxBlock.offset bs b.offset).1
        · exact (foldl_vmin_le VxBlock.offset bs b0.offset).2 b hb
      have hle : vle bbmin c := vle_trans hmin hbnd.1
      refine ⟨hle, ?_⟩
      dsimp only
      rw [foldl_layBlock]
      simp only [Bool.false_or, List.any_eq_true]
      refine ⟨b, hb, ?_⟩
      have e1 : bbmin.1 + (((c.1 - bbmin.1).toNat : ℕ) : ℤ) = c.1 := by
        rw [Int.toNat_of_nonneg (by linarith [hle.1])]; ring
      have e2 : bbmin.2.1 + (((c.2.1 - bbmin.2.1).toNat : ℕ) : ℤ) = c.2.1 := by
        rw [Int.toNat_of_nonneg (by linarith [hle.2.1])]; ring
      have e3 : bbmin.2.2 + (((c.2.2 - bbmin.2.2).toNat : ℕ) : ℤ) = c.2.2 := by
        rw [Int.toNat_of_nonneg (by linarith [hle.2.2])]; ring
      rw [e1, e2, e3]
      exact hmask

end SegmentationHelper

namespace SegmentationHelper

/-- The grid dimensions `so.bounding_box[1] - so.bounding_box[0]` of the
reconstructed dense volume. -/
def gridDims (L : LoadedVoxels) : ℕ × ℕ × ℕ :=
  ((L.bbmax.1 - L.bbmin.1).toNat, (L.bbmax.2.1 - L.bbmin.2.1).toNat,
    (L.bbmax.2.2 - L.bbmin.2.2).toNat)

/-- Number of True voxels of the reconstructed dense volume. -/
def denseCount (L : LoadedVoxels) : ℕ :=
  ((gridSet (gridDims L)).filter fun p => L.vox p.1 p.2.1 p.2.2 = true).card

/-- Translation of a grid index by an absolute base coordinate. -/
def shiftBy (base : Vec3) (p : ℕ × ℕ × ℕ) : Vec3 :=
  (base.1 + (p.1 : ℤ), base.2.1 + (p.2.1 : ℤ), base.2.2 + (p.2.2 : ℤ))

/-- The set of absolute coordinates of the True voxels of one block. -/
def coordSet (b : VxBlock) : Finset Vec3 :=
  ((gridSet b.shape).filter fun p => b.mask p.1 p.2.1 p.2.2 = true).image
    (shiftBy b.offset)

/-- The union of the blocks' absolute True-voxel sets. -/
def unionCoordSet (bs : List VxBlock) : Finset Vec3 :=
  bs.foldr (fun b acc => coordSet b ∪ acc) ∅

theorem shiftBy_injective (base : Vec3) : Function.Injective (shiftBy base) := by
  rintro ⟨x1, y1, z1⟩ ⟨x2, y2, z2⟩ h
  unfold shiftBy at h
  simp only [Prod.mk.injEq] at h
  have h1 : x1 = x2 := by exact_mod_cast add_left_cancel h.1
  have h2 : y1 = y2 := by exact_mod_cast add_left_cancel h.2.1
  have h3 : z1 = z2 := by exact_mod_cast add_left_cancel h.2.2
  simp [h1, h2, h3]

theorem mem_gridSet {d : ℕ × ℕ × ℕ} {p : ℕ × ℕ × ℕ} :
    p ∈ gridSet d ↔ p.1 < d.1 ∧ p.2.1 < d.2.1 ∧ p.2.2 < d.2.2 := by
  unfold gridSet
  simp [Finset.mem_product]

theorem coordSet_card (b : VxBlock) : (coordSet b).card = blockCount b := by
  unfold coordSet blockCount
  exact Finset.card_image_of_injective _ (shiftBy_injective b.offset)

/-- Membership in a block's absolute coordinate set is exactly maskAbs. -/
theorem mem_coordSet {b : VxBlock} {c : Vec3} :
    c ∈ coordSet b ↔ maskAbs b c = true := by
  unfold coordSet
  rw [Finset.mem_image]
  constructor
  · rintro ⟨p, hp, rfl⟩
    rw [Finset.mem_filter, mem_gridSet] at hp
    obtain ⟨⟨h1, h2, h3⟩, hm⟩ := hp
    unfold maskAbs shiftBy
    simp only [Bool.and_eq_true, decide_eq_true_eq]
    refine ⟨⟨⟨⟨⟨⟨by omega, by omega⟩, by omega⟩, by omega⟩, by omega⟩, by omega⟩, ?_⟩
    have e1 : (b.offset.1 + (p.1 : ℤ) - b.offset.1).toNat = p.1 := by omega
    have e2 : (b.offset.2.1 + (p.2.1 : ℤ) - b.offset.2.1).toNat = p.2.1 := by omega
    have e3 : (b.offset.2.2 + (p.2.2 : ℤ) - b.offset.2.2).toNat = p.2.2 := by omega
    rw [e1, e2, e3]
    exact hm
  · intro h
    unfold maskAbs at h
    simp only [Bool.and_eq_true, decide_eq_true_eq] at h
    obtain ⟨⟨⟨⟨⟨⟨hA, hB⟩, hC⟩, hD⟩, hE⟩, hF⟩, hM⟩ := h
    refine ⟨((c.1 - b.offset.1).toNat, (c.2.1 - b.offset.2.1).toNat,
      (c.2.2 - b.offset.2.2).toNat), ?_, ?_⟩
    · rw [Finset.mem_filter, mem_gridSet]
      dsimp only
      exact ⟨⟨by omega, by omega, by omega⟩, hM⟩
    · unfold shiftBy
      have e1 : b.offset.1 + ((c.1 - b.offset.1).toNat : ℤ) = c.1 := by omega
      have e2 : b.offset.2.1 + ((c.2.1 - b.offset.2.1).toNat : ℤ) = c.2.1 := by omega
      have e3 : b.offset.2.2 + ((c.2.2 - b.offset.2.2).toNat : ℤ) = c.2.2 := by omega
      rw [e1, e2, e3]

theorem mem_unionCoordSet {bs : List VxBlock} {c : Vec3} :
    c ∈ unionCoordSet bs ↔ ∃ b ∈ bs, maskAbs b c = true := by
  induction bs with
  | nil => simp [unionCoordSet]
  | cons a rest ih =>
    unfold unionCoordSet at ih ⊢
    simp only [List.foldr_cons, Finset.mem_union, ih, mem_coordSet, List.mem_cons]
    constructor
    · rintro (h | ⟨b, hb, hm⟩)
      · exact ⟨a, Or.inl rfl, h⟩
      · exact ⟨b, Or.inr hb, hm⟩
    · rintro ⟨b, rfl | hb, hm⟩
      · exact Or.inl hm
      · exact Or.inr ⟨b, hb, hm⟩

theorem card_unionCoordSet_le (bs : List VxBlock) :
    (unionCoordSet bs).card ≤ (bs.map blockCount).sum := by
  induction bs with
  | nil => simp [unionCoordSet]
  | cons a rest ih =>
    unfold unionCoordSet at ih ⊢
    simp only [List.foldr_cons, List.map_cons, List.sum_cons]
    calc (coordSet a ∪ rest.foldr (fun b acc => coordSet b ∪ acc) ∅).card
        ≤ (coordSet a).card + (rest.foldr (fun b acc => coordSet b ∪ acc) ∅).card :=
          Finset.card_union_le _ _
      _ ≤ blockCount a + (rest.map blockCount).sum := by
          rw [coordSet_card]; exact Nat.add_le_add_left ih _

/-- When some absolute coordinate is a True voxel of at least two stored
blocks, the union of the coordinate sets is strictly smaller than the sum of
the per-block counts. -/
theorem card_unionCoordSet_lt (bs : List VxBlock)
    (h : ∃ c : Vec3, 2 ≤ bs.countP fun b => maskAbs b c) :
    (unionCoordSet bs).card < (bs.map blockCount).sum := by
  obtain ⟨c, hc⟩ := h
  induction bs with
  | nil => simp at hc
  | cons a rest ih =>
    rw [List.countP_cons] at hc
    by_cases ha : maskAbs a c = true
    · have ha' : (fun b => maskAbs b c) a = true := ha
      by_cases hr : 1 ≤ rest.countP fun b => maskAbs b c
      · -- c lies in the head block and in some later block: strict union bound
        have hcmem : c ∈ coordSet a := mem_coordSet.mpr ha
        have hcrest : c ∈ unionCoordSet rest := by
          rw [mem_unionCoordSet]
          obtain ⟨b, hb, hm⟩ := List.countP_pos.mp (Nat.lt_of_lt_of_le Nat.zero_lt_one hr)
          exact ⟨b, hb, hm⟩
        have hinter : 1 ≤ (coordSet a ∩ unionCoordSet rest).card :=
          Finset.card_pos.mpr ⟨c, Finset.mem_inter.mpr ⟨hcmem, hcrest⟩⟩
        have hkey := Finset.card_union_add_card_inter (coordSet a) (unionCoordSet rest)
        have hle := card_unionCoordSet_le rest
        unfold unionCoordSet
        simp only [List.foldr_cons, List.map_cons, List.sum_cons]
        have : (coordSet a ∪ unionCoordSet rest).card + 1 ≤
            (coordSet a).card + (unionCoordSet rest).card := by omega
        rw [coordSet_card] at this
        unfold unionCoordSet at this hle
        omega
      · -- both True occurrences are in the head... impossible: count ≤ 1 + 0 < 2
        simp only [ha', if_true] at hc
        omega
    · have ha' : ((fun b => maskAbs b c) a = true) ↔ False := by simp [ha]
      simp only [ha', if_false] at hc
      have hrest := ih (by simpa using hc)
      unfold unionCoordSet at hrest ⊢
      simp only [List.foldr_cons, List.map_cons, List.sum_cons]
      have hu := Finset.card_union_le (coordSet a)
        (rest.foldr (fun b acc => coordSet b ∪ acc) ∅)
      rw [coordSet_card] at hu
      omega

theorem foldl_add_blockCount (bs : List VxBlock) (n : ℕ) :
    bs.foldl (fun s b => s + blockCount b) n = n + (bs.map blockCount).sum := by
  induction bs generalizing n with
  | nil => simp
  | cons a rest ih =>
    simp only [List.foldl_cons, List.map_cons, List.sum_cons]
    rw [ih]
    omega

/-- A vector below the seed and below every folded offset is below the
elementwise minimum fold. -/
theorem foldl_vmin_glb (g : VxBlock → Vec3) (bs : List VxBlock) (m x : Vec3)
    (hm : vle x m) (hb : ∀ b ∈ bs, vle x (g b)) :
    vle x (bs.foldl (fun m b => vmin m (g b)) m) := by
  induction bs generalizing m with
  | nil => exact hm
  | cons a rest ih =>
    simp only [List.foldl_cons]
    refine ih (vmin m (g a)) ?_ fun b hbmem => hb b (List.mem_cons_of_mem _ hbmem)
    have hga := hb a (List.mem_cons_self _ _)
    exact ⟨le_min hm.1 hga.1, le_min hm.2.1 hga.2.1, le_min hm.2.2 hga.2.2⟩

/-- A vector above the seed and above every folded extent is above the
elementwise maximum fold. -/
theorem foldl_vmax_lub (g : VxBlock → Vec3) (bs : List VxBlock) (m x : Vec3)
    (hm : vle m x) (hb : ∀ b ∈ bs, vle (g b) x) :
    vle (bs.foldl (fun m b => vmax m (g b)) m) x := by
  induction bs generalizing m with
  | nil => exact hm
  | cons a rest ih =>
    simp only [List.foldl_cons]
    refine ih (vmax m (g a)) ?_ fun b hbmem => hb b (List.mem_cons_of_mem _ hbmem)
    have hga := hb a (List.mem_cons_self _ _)
    exact ⟨max_le hm.1 hga.1, max_le hm.2.1 hga.2.1, max_le hm.2.2 hga.2.2⟩

end SegmentationHelper

namespace SegmentationHelper

/-- Shifting the truncated difference back recovers the coordinate. -/
theorem shiftBy_toNat_eq {bbmin c : Vec3} (h : vle bbmin c) :
    shiftBy bbmin ((c.1 - bbmin.1).toNat, (c.2.1 - bbmin.2.1).toNat,
      (c.2.2 - bbmin.2.2).toNat) = c := by
  obtain ⟨h1, h2, h3⟩ := h
  unfold shiftBy
  dsimp only
  have e1 : bbmin.1 + ((c.1 - bbmin.1).toNat : ℤ) = c.1 := by omega
  have e2 : bbmin.2.1 + ((c.2.1 - bbmin.2.1).toNat : ℤ) = c.2.1 := by omega
  have e3 : bbmin.2.2 + ((c.2.2 - bbmin.2.2).toNat : ℤ) = c.2.2 := by omega
  rw [e1, e2, e3]

/-- The number of True voxels of the dense volume reconstructed by
load_voxels equals the cardinality of the union of the blocks' absolute
True-voxel coordinate sets. -/
theorem denseCount_eq_card_union (b0 : VxBlock) (bs : List VxBlock) :
    denseCount ⟨bs.foldl (fun m b => vmin m b.offset) b0.offset,
        bs.foldl (fun m b => vmax m (blockExtent b)) (blockExtent b0),
        (b0 :: bs).foldl
          (layBlock (bs.foldl (fun m b => vmin m b.offset) b0.offset))
          (fun _ _ _ => false),
        (b0 :: bs).foldl (fun s b => s + blockCount b) 0⟩ =
      (unionCoordSet (b0 :: bs)).card := by
  set bbmin := bs.foldl (fun m b => vmin m b.offset) b0.offset with hbbmin
  set bbmax := bs.foldl (fun m b => vmax m (blockExtent b)) (blockExtent b0) with hbbmax
  unfold denseCount gridDims
  dsimp only
  rw [← Finset.card_image_of_injective _ (shiftBy_injective bbmin)]
  congr 1
  apply Finset.ext
  intro c
  rw [Finset.mem_image, mem_unionCoordSet]
  constructor
  · rintro ⟨p, hp, rfl⟩
    rw [Finset.mem_filter, mem_gridSet] at hp
    obtain ⟨_, hvox⟩ := hp
    rw [foldl_layBlock] at hvox
    simp only [Bool.false_or, List.any_eq_true] at hvox
    exact hvox
  · rintro ⟨b, hb, hmask⟩
    have hbnd := maskAbs_bounds hmask
    have hmin : vle bbmin b.offset := by
      rcases List.mem_cons.mp hb with rfl | hbmem
      · exact (foldl_vmin_le VxBlock.offset bs b.offset).1
      · exact (foldl_vmin_le VxBlock.offset bs b0.offset).2 b hbmem
    have hmax : vle (blockExtent b) bbmax := by
      rcases List.mem_cons.mp hb with rfl | hbmem
      · exact (foldl_vmax_ge blockExtent bs (blockExtent b)).1
      · exact (foldl_vmax_ge blockExtent bs (blockExtent b0)).2 b hbmem
    have hle : vle bbmin c := vle_trans hmin hbnd.1
    refine ⟨((c.1 - bbmin.1).toNat, (c.2.1 - bbmin.2.1).toNat,
      (c.2.2 - bbmin.2.2).toNat), ?_, shiftBy_toNat_eq hle⟩
    rw [Finset.mem_filter, mem_gridSet]
    obtain ⟨hl1, hl2, hl3⟩ := hle
    obtain ⟨hm1, hm2, hm3⟩ := hmax
    obtain ⟨hb1, hb2, hb3⟩ := hbnd.1
    constructor
    · dsimp only
      refine ⟨?_, ?_, ?_⟩ <;> omega
    · dsimp only
      rw [foldl_layBlock]
      simp only [Bool.false_or, List.any_eq_true]
      refine ⟨b, hb, ?_⟩
      have := shiftBy_toNat_eq ⟨hl1, hl2, hl3⟩
      unfold shiftBy at this
      dsimp only at this
      rw [this]
      exact hmask

/-- Claim C10: the voxel count cached by load_voxels is the sum of the True
voxels over all stored blocks; when the stored blocks of an object overlap in
at least one True voxel, that cached size strictly exceeds the True-voxel
count of the reconstructed dense volume.  The cached bounding box pairs the
elementwise minimum of the block offsets with the elementwise maximum of the
block extents (bounds and optimality). -/
theorem load_voxels_size_and_bbox (i : ℕ) (b0 : VxBlock) (bs : List VxBlock)
    (hover : ∃ c : Vec3, 2 ≤ (b0 :: bs).countP fun b => maskAbs b c) :
    ∃ L, load_voxels (saveAll i (b0 :: bs)) i = some L ∧
      L.size = ((b0 :: bs).map blockCount).sum ∧
      (∀ b ∈ b0 :: bs, vle L.bbmin b.offset ∧ vle (blockExtent b) L.bbmax) ∧
      (∀ m : Vec3, (∀ b ∈ b0 :: bs, vle m b.offset) → vle m L.bbmin) ∧
      (∀ M : Vec3, (∀ b ∈ b0 :: bs, vle (blockExtent b) M) → vle L.bbmax M) ∧
      denseCount L < L.size := by
  have hlook := saveAll_lookup i b0 bs
  refine ⟨⟨bs.foldl (fun m b => vmin m b.offset) b0.offset,
      bs.foldl (fun m b => vmax m (blockExtent b)) (blockExtent b0),
      (b0 :: bs).foldl
        (layBlock (bs.foldl (fun m b => vmin m b.offset) b0.offset))
        (fun _ _ _ => false),
      (b0 :: bs).foldl (fun s b => s + blockCount b) 0⟩, ?_, ?_, ?_, ?_, ?_, ?_⟩
  · unfold load_voxels
    rw [hlook]
  · dsimp only
    rw [foldl_add_blockCount]
    exact Nat.zero_add _
  · intro b hb
    dsimp only
    constructor
    · rcases List.mem_cons.mp hb with rfl | hbmem
      · exact (foldl_vmin_le VxBlock.offset bs b.offset).1
      · exact (foldl_vmin_le VxBlock.offset bs b0.offset).2 b hbmem
    · rcases List.mem_cons.mp hb with rfl | hbmem
      · exact (foldl_vmax_ge blockExtent bs (blockExtent b)).1
      · exact (foldl_vmax_ge blockExtent bs (blockExtent b0)).2 b hbmem
  · intro m hm
    dsimp only
    exact foldl_vmin_glb VxBlock.offset bs b0.offset m
      (hm b0 (List.mem_cons_self _ _))
      fun b hb => hm b (List.mem_cons_of_mem _ hb)
  · intro M hM
    dsimp only
    exact foldl_vmax_lub blockExtent bs (blockExtent b0) M
      (hM b0 (List.mem_cons_self _ _))
      fun b hb => hM b (List.mem_cons_of_mem _ hb)
  · rw [denseCount_eq_card_union b0 bs]
    dsimp only
    rw [foldl_add_blockCount]
    have := card_unionCoordSet_lt (b0 :: bs) hover
    omega

/-- Two fully-True unit blocks at the origin, overlapping in (0,0,0). -/
def c10Block : VxBlock := ⟨(0, 0, 0), (1, 1, 1), fun _ _ _ => true⟩

/-- Witness for load_voxels_size_and_bbox: two identical unit blocks saved to
object id 5 overlap in the voxel (0,0,0). -/
theorem load_voxels_size_and_bbox_witness :
    ∃ L, load_voxels (saveAll 5 [c10Block, c10Block]) 5 = some L ∧
      L.size = ([c10Block, c10Block].map blockCount).sum ∧
      (∀ b ∈ [c10Block, c10Block], vle L.bbmin b.offset ∧ vle (blockExtent b) L.bbmax) ∧
      (∀ m : Vec3, (∀ b ∈ [c10Block, c10Block], vle m b.offset) → vle m L.bbmin) ∧
      (∀ M : Vec3, (∀ b ∈ [c10Block, c10Block], vle (blockExtent b) M) → vle L.bbmax M) ∧
      denseCount L < L.size :=
  load_voxels_size_and_bbox 5 c10Block [c10Block]
    ⟨(0, 0, 0), by decide⟩

end SegmentationHelper

namespace ContactSites

abbrev Pos3 := ℕ × ℕ × ℕ

/-- scipy.ndimage 'reflect' boundary handling, for the one-step offsets used
by the 3x3x3 cross kernel of detect_cs: index -1 reflects to 0 and index n
reflects to n - 1; in-range indices are kept. -/
def reflectIdx (n : ℕ) (i : ℤ) : ℕ :=
  if i < 0 then 0 else if (n : ℤ) ≤ i then n - 1 else i.toNat

/-- One sample of the label volume at a (possibly out-of-range) index,
after reflection. -/
def nbVal (arr : Pos3 → ℕ) (shape : Pos3) (x y z : ℤ) : ℤ :=
  (arr (reflectIdx shape.1 x, reflectIdx shape.2.1 y, reflectIdx shape.2.2 z) : ℤ)

/-- The discrete Laplacian of detect_cs from contact_sites_helper.py:
scipy.ndimage.convolve with the 3x3x3 kernel holding -6 at the center and +1
at the six face-adjacent positions (the kernel is symmetric, so convolution
and correlation coincide). -/
def csConv (arr : Pos3 → ℕ) (shape : Pos3) (p : Pos3) : ℤ :=
  nbVal arr shape ((p.1 : ℤ) - 1) (p.2.1 : ℤ) (p.2.2 : ℤ) +
  nbVal arr shape ((p.1 : ℤ) + 1) (p.2.1 : ℤ) (p.2.2 : ℤ) +
  nbVal arr shape (p.1 : ℤ) ((p.2.1 : ℤ) - 1) (p.2.2 : ℤ) +
  nbVal arr shape (p.1 : ℤ) ((p.2.1 : ℤ) + 1) (p.2.2 : ℤ) +
  nbVal arr shape (p.1 : ℤ) (p.2.1 : ℤ) ((p.2.2 : ℤ) - 1) +
  nbVal arr shape (p.1 : ℤ) (p.2.1 : ℤ) ((p.2.2 : ℤ) + 1) -
  6 * (arr p : ℤ)

/-- `edges = scipy.ndimage.convolve(arr, jac) < 0` of detect_cs. -/
def detectEdges (arr : Pos3 → ℕ) (shape : Pos3) (p : Pos3) : Bool :=
  decide (csConv arr shape p < 0)

/-- `np.unique(chunk)`: the distinct values in ascending order. -/
def npUnique (chunk : List ℕ) : List ℕ :=
  List.insertionSort (· ≤ ·) chunk.dedup

/-- kernel from contact_sites_helper.py:
  unique_ids, counts = np.unique(chunk, return_counts=True)
  counts[unique_ids == 0] = -1
  counts[unique_ids == center_id] = -1
  if np.max(counts) > 0:
      partner_id = unique_ids[np.argmax(counts)]
      if center_id > partner_id: return (partner_id << 32) + center_id
      else: return (center_id << 32) + partner_id
  else: return 0
np.argmax takes the first maximal index, i.e. the smallest maximal unique id.
np.max raises on an empty window; the stencils used here are nonempty, so the
`none` branch below is unreachable in the modelled call sites. -/
def kernel (chunk : List ℕ) (center_id : ℕ) : ℕ :=
  let uniq := npUnique chunk
  let counts : List ℤ :=
    uniq.map fun v => if v = 0 ∨ v = center_id then -1 else (chunk.count v : ℤ)
  match counts.max? with
  | none => 0
  | some m =>
    if 0 < m then
      match (uniq.zip counts).find? fun vc => vc.2 = m with
      | some vc =>
        if vc.1 < center_id then (vc.1 <<< 32) + center_id
        else (center_id <<< 32) + vc.1
      | none => 0
    else 0

/-- The stencil-shaped window of process_block_nonzero starting at `q`. -/
def windowList (arr : Pos3 → ℕ) (q : Pos3) (st : Pos3) : List ℕ :=
  (List.range st.1).flatMap fun i =>
    (List.range st.2.1).flatMap fun j =>
      (List.range st.2.2).map fun k => arr (q.1 + i, q.2.1 + j, q.2.2 + k)

/-- process_block_nonzero from contact_sites_helper.py at one output
position `q` of the cropped output array (valid for q + stencil within the
volume): zero unless the edge volume flags the voxel `q + stencil/2`, else
the kernel value of the stencil window starting at `q` with that voxel's
label as center. -/
def process_block_nonzero (edges : Pos3 → Bool) (arr : Pos3 → ℕ) (stencil : Pos3)
    (q : Pos3) : ℕ :=
  let off : Pos3 := (stencil.1 / 2, stencil.2.1 / 2, stencil.2.2 / 2)
  let c : Pos3 := (q.1 + off.1, q.2.1 + off.2.1, q.2.2 + off.2.2)
  if edges c then kernel (windowList arr q stencil) (arr c) else 0

/-- process_block from contact_sites_helper.py at one interior position `p`
(valid for offset ≤ p and p + offset within the volume).  Its chunk slice is
  arr[x - offset[0]: x + offset[0] + 1,
      y - offset[1]: y + offset[1],
      z - offset[2]: z + offset[2]]
so the y and z ranges have lengths 2*offset, not the full stencil lengths:
the +1 present on the x slice is missing on y and z. -/
def process_block (edges : Pos3 → Bool) (arr : Pos3 → ℕ) (stencil : Pos3)
    (p : Pos3) : ℕ :=
  let off : Pos3 := (stencil.1 / 2, stencil.2.1 / 2, stencil.2.2 / 2)
  if edges p then
    kernel
      ((List.range (2 * off.1 + 1)).flatMap fun i =>
        (List.range (2 * off.2.1)).flatMap fun j =>
          (List.range (2 * off.2.2)).map fun k =>
            arr (p.1 - off.1 + i, p.2.1 - off.2.1 + j, p.2.2 - off.2.2 + k))
      (arr p)
  else 0

/-- detect_cs from contact_sites_helper.py: flag edges with the discrete
Laplacian, then run process_block_nonzero with stencil [13, 13, 7]. -/
def detect_cs (arr : Pos3 → ℕ) (shape : Pos3) (q : Pos3) : ℕ :=
  process_block_nonzero (fun p => detectEdges arr shape p) arr (13, 13, 7) q

/-- A volume of two abutting constant-label blocks sharing one face: label 1
for x < s, label 2 for x ≥ s. -/
def twoBlockArr (s : ℕ) : Pos3 → ℕ := fun p => if p.1 < s then 1 else 2

end ContactSites

namespace ContactSites

/-- The C4 label volume: label 5 everywhere except label 3 at (0, 6, 2),
a position contained in the stencil window of process_block_nonzero around
the center (3, 3, 1) but dropped by the truncated chunk slice of
process_block. -/
def c4Arr : Pos3 → ℕ := fun p => if p = (0, 6, 2) then 3 else 5

/-- The C4 edge volume: only the voxel (3, 3, 1) is flagged. -/
def c4Edges : Pos3 → Bool := fun p => decide (p = (3, 3, 1))

set_option maxRecDepth 10000 in
/-- Claim C4 (failing input): on a 7 x 7 x 3 volume with default stencil
(7, 7, 3), the cropped output position (0, 0, 0) of process_block_nonzero
corresponds to the uncropped position (3, 3, 1) = (0, 0, 0) + stencil/2 of
process_block, yet the two variants disagree there: the nonzero variant sees
the partner label 3 at (0, 6, 2) inside its full 7 x 7 x 3 window and returns
the packed key (3 << 32) + 5, while process_block's chunk slice
arr[x-3:x+4, y-3:y+3, z-1:z+1] misses the trailing y and z planes, sees only
the center label 5, and returns 0. -/
theorem process_block_variants_disagree :
    process_block_nonzero c4Edges c4Arr (7, 7, 3) (0, 0, 0) = (3 <<< 32) + 5 ∧
    process_block c4Edges c4Arr (7, 7, 3) (3, 3, 1) = 0 := by
  constructor <;> decide

end ContactSites

namespace ContactSites

theorem reflectIdx_lt {n i : ℕ} (h : i < n) : reflectIdx n (i : ℤ) = i := by
  unfold reflectIdx
  split_ifs <;> omega

theorem reflectIdx_sub_one {n i : ℕ} (h : i < n) :
    reflectIdx n ((i : ℤ) - 1) = i - 1 := by
  unfold reflectIdx
  split_ifs <;> omega

theorem reflectIdx_add_one {n i : ℕ} (h : i + 1 ≤ n) :
    reflectIdx n ((i : ℤ) + 1) = if i + 1 = n then n - 1 else i + 1 := by
  unfold reflectIdx
  split_ifs <;> omega

theorem nbVal_twoBlock (s : ℕ) (shape : Pos3) (x y z : ℤ) :
    nbVal (twoBlockArr s) shape x y z =
      if reflectIdx shape.1 x < s then 1 else 2 := by
  unfold nbVal twoBlockArr
  split_ifs <;> simp

/-- The Laplacian edge detector on the two-block volume flags exactly the
voxel layer x = s, the face-adjacent layer on the higher-label side. -/
theorem detectEdges_twoBlock (nx ny nz s : ℕ) (hs1 : 1 ≤ s) (hs2 : s < nx)
    (p : Pos3) (hp1 : p.1 < nx) :
    detectEdges (twoBlockArr s) (nx, ny, nz) p = decide (p.1 = s) := by
  unfold detectEdges
  rw [decide_eq_decide]
  unfold csConv
  rw [nbVal_twoBlock, nbVal_twoBlock, nbVal_twoBlock, nbVal_twoBlock,
    nbVal_twoBlock, nbVal_twoBlock]
  dsimp only
  rw [reflectIdx_sub_one hp1, reflectIdx_add_one (by omega), reflectIdx_lt hp1]
  unfold twoBlockArr
  rw [apply_ite (fun n : ℕ => (n : ℤ))]
  split_ifs <;> omega

theorem mem_windowList {arr : Pos3 → ℕ} {q st : Pos3} {i j k : ℕ}
    (hi : i < st.1) (hj : j < st.2.1) (hk : k < st.2.2) :
    arr (q.1 + i, q.2.1 + j, q.2.2 + k) ∈ windowList arr q st := by
  unfold windowList
  rw [List.mem_flatMap]
  refine ⟨i, List.mem_range.mpr hi, ?_⟩
  rw [List.mem_flatMap]
  exact ⟨j, List.mem_range.mpr hj, List.mem_map.mpr ⟨k, List.mem_range.mpr hk, rfl⟩⟩

theorem windowList_twoBlock_vals {s : ℕ} {q st : Pos3} {v : ℕ}
    (hv : v ∈ windowList (twoBlockArr s) q st) : v = 1 ∨ v = 2 := by
  unfold windowList at hv
  simp only [List.mem_flatMap, List.mem_map, List.mem_range] at hv
  obtain ⟨i, _, j, _, k, _, rfl⟩ := hv
  unfold twoBlockArr
  dsimp only
  split_ifs <;> simp

/-- A sorted duplicate-free list of naturals whose members are exactly 1 and
2 is the list [1, 2]. -/
theorem sorted_mem_pair {l : List ℕ} (hs : l.Sorted (· ≤ ·)) (hn : l.Nodup)
    (hmem : ∀ v : ℕ, v ∈ l ↔ v = 1 ∨ v = 2) : l = [1, 2] := by
  cases l with
  | nil =>
    have := (hmem 1).mpr (Or.inl rfl)
    simp at this
  | cons a t =>
    cases t with
    | nil =>
      have h1 := (hmem 1).mpr (Or.inl rfl)
      have h2 := (hmem 2).mpr (Or.inr rfl)
      simp at h1 h2
      omega
    | cons b u =>
      have hab : a ≤ b := (List.sorted_cons.mp hs).1 b (by simp)
      have hanb : a ≠ b := by
        intro h
        exact (List.nodup_cons.mp hn).1 (h ▸ by simp)
      have ha := (hmem a).mp (by simp)
      have hb := (hmem b).mp (by simp)
      have ha1 : a = 1 := by omega
      have hb2 : b = 2 := by omega
      subst ha1 hb2
      cases u with
      | nil => rfl
      | cons c w =>
        have hc := (hmem c).mp (by simp)
        have hca : c ≠ 1 := by
          intro h
          exact (List.nodup_cons.mp hn).1 (by simp [h])
        have hcb : c ≠ 2 := by
          intro h
          exact (List.nodup_cons.mp (List.nodup_cons.mp hn).2).1 (by simp [h])
        omega

/-- np.unique of a window that holds the values 1 and 2 and nothing else. -/
theorem npUnique_pair {chunk : List ℕ} (hsub : ∀ v ∈ chunk, v = 1 ∨ v = 2)
    (h1 : 1 ∈ chunk) (h2 : 2 ∈ chunk) : npUnique chunk = [1, 2] := by
  unfold npUnique
  apply sorted_mem_pair
  · exact List.sorted_insertionSort _ _
  · exact ((List.perm_insertionSort _ _).nodup_iff).mpr (List.nodup_dedup chunk)
  · intro v
    rw [(List.perm_insertionSort _ _).mem_iff, List.mem_dedup]
    constructor
    · exact hsub v
    · rintro (rfl | rfl)
      · exact h1
      · exact h2

/-- The contact-site kernel on a window holding exactly the labels 1 and 2
with center label 2: the partner is 1 and the result is the packed key
(1 << 32) + 2 = 2 ^ 32 + 2. -/
theorem kernel_pair (chunk : List ℕ)
    (hsub : ∀ v ∈ chunk, v = 1 ∨ v = 2) (h1 : 1 ∈ chunk) (h2 : 2 ∈ chunk) :
    kernel chunk 2 = 2 ^ 32 + 2 := by
  unfold kernel
  dsimp only
  rw [npUnique_pair hsub h1 h2]
  have hcpos : 0 < chunk.count 1 := List.count_pos_iff.mpr h1
  have hcounts : List.map (fun v => if v = 0 ∨ v = 2 then (-1 : ℤ) else (chunk.count v : ℤ))
      [1, 2] = [(chunk.count 1 : ℤ), -1] := by norm_num
  rw [hcounts]
  have hmax : ([(chunk.count 1 : ℤ), -1]).max? = some (max (chunk.count 1 : ℤ) (-1)) := rfl
  have hm2 : max (chunk.count 1 : ℤ) (-1) = (chunk.count 1 : ℤ) := max_eq_left (by omega)
  rw [hmax, hm2]
  dsimp only
  rw [if_pos (by exact_mod_cast hcpos)]
  have hzip : ([(1 : ℕ), 2].zip [(chunk.count 1 : ℤ), -1]) =
      [(1, (chunk.count 1 : ℤ)), (2, -1)] := rfl
  rw [hzip]
  rw [List.find?_cons_of_pos _ (by simp)]
  dsimp only
  norm_num [Nat.shiftLeft_eq]

/-- Claim C3: on a volume of two abutting constant-label blocks (label 1 for
x < s, label 2 for x ≥ s, sharing the face x = s), the discrete-Laplacian
edge detector of detect_cs flags exactly the face-adjacent voxel layer
x = s, and every flagged voxel covered by the (stencil-cropped) output of
process_block_nonzero is assigned the packed contact key
(1 << 32) + 2 = (min(1,2) << 32) + max(1,2); all other output voxels are 0. -/
theorem detect_cs_two_blocks (nx ny nz s : ℕ) (p q : Pos3)
    (hs1 : 1 ≤ s) (hs2 : s < nx) (hp1 : p.1 < nx)
    (hq1 : q.1 + 13 ≤ nx) (hq2 : q.2.1 + 13 ≤ ny) (hq3 : q.2.2 + 7 ≤ nz) :
    detectEdges (twoBlockArr s) (nx, ny, nz) p = decide (p.1 = s) ∧
    detect_cs (twoBlockArr s) (nx, ny, nz) q =
      (if q.1 + 6 = s then 2 ^ 32 + 2 else 0) := by
  refine ⟨detectEdges_twoBlock nx ny nz s hs1 hs2 p hp1, ?_⟩
  unfold detect_cs process_block_nonzero
  dsimp only
  have hedge : detectEdges (twoBlockArr s) (nx, ny, nz) (q.1 + 6, q.2.1 + 6, q.2.2 + 3)
      = decide (q.1 + 6 = s) :=
    detectEdges_twoBlock nx ny nz s hs1 hs2 _ (by omega)
  rw [hedge]
  by_cases hc : q.1 + 6 = s
  · rw [if_pos (by simp [hc]), if_pos hc]
    have hcenter : twoBlockArr s (q.1 + 6, q.2.1 + 6, q.2.2 + 3) = 2 := by
      unfold twoBlockArr
      dsimp only
      rw [if_neg (by omega)]
    rw [hcenter]
    apply kernel_pair
    · intro v hv
      exact windowList_twoBlock_vals hv
    · have hval : twoBlockArr s (q.1 + 0, q.2.1 + 0, q.2.2 + 0) = 1 := by
        unfold twoBlockArr
        dsimp only
        rw [if_pos (by omega)]
      have hm := @mem_windowList (twoBlockArr s) q (13, 13, 7) 0 0 0
        (by norm_num) (by norm_num) (by norm_num)
      rwa [hval] at hm
    · have hval : twoBlockArr s (q.1 + 6, q.2.1 + 0, q.2.2 + 0) = 2 := by
        unfold twoBlockArr
        dsimp only
        rw [if_neg (by omega)]
      have hm := @mem_windowList (twoBlockArr s) q (13, 13, 7) 6 0 0
        (by norm_num) (by norm_num) (by norm_num)
      rwa [hval] at hm
  · rw [if_neg (by simp [hc]), if_neg hc]

/-- Witness for detect_cs_two_blocks: a 13 x 13 x 7 volume split at s = 6,
checked at the flagged voxel p = (6, 0, 0) and the single output position
q = (0, 0, 0). -/
theorem detect_cs_two_blocks_witness :
    ((1 : ℕ) ≤ 6 ∧ (6 : ℕ) < 13 ∧ ((6, 0, 0) : Pos3).1 < 13 ∧
      (0 : ℕ) + 13 ≤ 13 ∧ (0 : ℕ) + 13 ≤ 13 ∧ (0 : ℕ) + 7 ≤ 7) ∧
    (detectEdges (twoBlockArr 6) (13, 13, 7) (6, 0, 0) = decide (((6, 0, 0) : Pos3).1 = 6) ∧
      detect_cs (twoBlockArr 6) (13, 13, 7) (0, 0, 0) =
        (if (0 : ℕ) + 6 = 6 then 2 ^ 32 + 2 else 0)) :=
  ⟨by decide,
    detect_cs_two_blocks 13 13 7 6 (6, 0, 0) (0, 0, 0) (by decide) (by decide)
      (by decide) (by decide) (by decide) (by decide)⟩

end ContactSites

namespace Axoness

/-- A skeleton node of a tracing: its id, graph degree and cached
axoness prediction (0 dendrite, 1 axon, 2 soma). -/
structure SkelNode where
  id : ℕ
  degree : ℕ
  axoness_pred : ℤ
deriving DecidableEq

inductive PyError where
  | nameError (missing : String)
deriving DecidableEq

/-- The head-node and soma collection loop at the top of majority_processes
(syconn/processing/axoness.py):
  hns = []
  soma_node_nb = 0
  soma_node_ids = []
  for node in anno.getNodes():
      if node.degree() == 1:
          hns.append(node)
      if int(node.data["axoness_pred"]) == 2:
          soma_node_nb += 1
          soma_nodes_ids.append(node.getID())
The name `soma_nodes_ids` in the append is never defined anywhere (the list
declared above the loop is `soma_node_ids`), so Python raises a NameError as
soon as the loop reaches the first soma-labeled node; otherwise the loop
returns the collected degree-1 head nodes and the soma count (0). -/
def collectSomaInfo : List SkelNode → List SkelNode → ℕ →
    Except PyError (List SkelNode × ℕ)
  | [], hns, cnt => .ok (hns, cnt)
  | n :: rest, hns, cnt =>
    if n.axoness_pred = 2 then .error (.nameError "soma_nodes_ids")
    else collectSomaInfo rest (if n.degree = 1 then hns ++ [n] else hns) cnt

/-- The prelude of majority_processes over the nodes of a tracing: the part
executed before the soma branch can be entered. -/
def majority_processes_prelude (nodes : List SkelNode) :
    Except PyError (List SkelNode × ℕ) :=
  collectSomaInfo nodes [] 0

theorem collectSomaInfo_error (nodes : List SkelNode)
    (h : ∃ n ∈ nodes, n.axoness_pred = 2) :
    ∀ hns cnt, collectSomaInfo nodes hns cnt = .error (.nameError "soma_nodes_ids") := by
  induction nodes with
  | nil => simp at h
  | cons n rest ih =>
    intro hns cnt
    unfold collectSomaInfo
    by_cases hn : n.axoness_pred = 2
    · rw [if_pos hn]
    · rw [if_neg hn]
      obtain ⟨m, hm, hax⟩ := h
      rcases List.mem_cons.mp hm with rfl | hmem
      · exact absurd hax hn
      · exact ih ⟨m, hmem, hax⟩ _ _

/-- Claim C5 (code bug): for every tracing that contains at least one node
with soma prediction (axoness_pred == 2), majority_processes never reaches
its soma branch: the collection loop before it appends to the undefined name
`soma_nodes_ids` (the declared list is `soma_node_ids`) and raises NameError
at the first soma-labeled node, so the grow-out, the re-vote, the leaf
processing and the final force-reset of soma labels are never executed. -/
theorem majority_processes_soma_crashes (nodes : List SkelNode)
    (h : ∃ n ∈ nodes, n.axoness_pred = 2) :
    majority_processes_prelude nodes = .error (.nameError "soma_nodes_ids") :=
  collectSomaInfo_error nodes h [] 0

/-- Witness for majority_processes_soma_crashes: a tracing with a single
soma-labeled node of degree 1. -/
theorem majority_processes_soma_crashes_witness :
    majority_processes_prelude [⟨0, 1, 2⟩] = .error (.nameError "soma_nodes_ids") :=
  majority_processes_soma_crashes [⟨0, 1, 2⟩] ⟨⟨0, 1, 2⟩, by simp, rfl⟩

/-- The walk of grow_out_soma (syconn/processing/axoness.py) along a path,
after the source node itself has been visited.  `acc` is the distance
accumulated so far, `dists` the physical (scaled-coordinate) distances
between consecutive path nodes (np.linalg.norm of coordinate differences),
`labels` the axoness_pred labels of the nodes still ahead.  Source loop:
  for node in nx.dfs_preorder_nodes(graph, source):
      new_coords = arr(node.getCoordinate_scaled())
      distance += np.linalg.norm(current_coords - new_coords)
      if distance > max_dist:
          break
      if int(node.data["axoness_pred"]) != 2:
          assign_property2node(node, 2, 'axoness')
      current_coords = new_coords
-/
def growWalk (maxDist : ℚ) : ℚ → List ℚ → List ℤ → List ℤ
  | _, _, [] => []
  | _, [], l :: ls => l :: ls
  | acc, d :: ds, l :: ls =>
    if maxDist < acc + d then l :: ls
    else (if l ≠ 2 then 2 else l) :: growWalk maxDist (acc + d) ds ls

/-- grow_out_soma specialised to a path graph whose DFS source is the
endpoint node 0 (the tracing's only soma node, so soma_nodes = [node 0] and
a single walk runs).  On a path, dfs_preorder_nodes from an endpoint
enumerates the nodes in path order and consecutive preorder nodes are path
neighbours, so the accumulated distance is the physical distance along the
path.  The first loop iteration visits the source itself, adding
norm(c0 - c0) = 0 and leaving its soma label in place. -/
def grow_out_soma_path (labels : List ℤ) (dists : List ℚ) (maxDist : ℚ) : List ℤ :=
  match labels with
  | [] => []
  | l0 :: ls => l0 :: growWalk maxDist 0 dists ls

theorem growWalk_cons (maxDist acc d : ℚ) (ds : List ℚ) (l : ℤ) (ls : List ℤ) :
    growWalk maxDist acc (d :: ds) (l :: ls) =
      (if maxDist < acc + d then l :: ls
       else (if l ≠ 2 then 2 else l) :: growWalk maxDist (acc + d) ds ls) := rfl

theorem grow_out_soma_path_cons (l0 : ℤ) (ls : List ℤ) (dists : List ℚ) (maxDist : ℚ) :
    grow_out_soma_path (l0 :: ls) dists maxDist = l0 :: growWalk maxDist 0 dists ls := rfl

theorem growWalk_all (maxDist : ℚ) (ds : List ℚ) (ls : List ℤ) (acc : ℚ)
    (hpos : ∀ d ∈ ds, 0 ≤ d) (hlen : ds.length = ls.length)
    (hsum : acc + ds.sum < maxDist) :
    growWalk maxDist acc ds ls = List.replicate ls.length 2 := by
  induction ds generalizing ls acc with
  | nil =>
    have h0 : ls.length = 0 := by simpa using hlen.symm
    have : ls = [] := List.length_eq_zero.mp h0
    subst this
    rfl
  | cons d ds' ih =>
    cases ls with
    | nil => simp at hlen
    | cons l ls' =>
      rw [growWalk_cons]
      have hd : 0 ≤ d := hpos d (by simp)
      have hsum' : ∀ x ∈ ds', 0 ≤ x := fun x hx => hpos x (by simp [hx])
      have hs : 0 ≤ ds'.sum := List.sum_nonneg hsum'
      rw [if_neg (by rw [List.sum_cons] at hsum; push_neg; linarith)]
      have hhead : (if l ≠ 2 then (2 : ℤ) else l) = 2 := by
        by_cases hl : l = 2 <;> simp [hl]
      rw [hhead, ih ls' (acc + d) hsum' (by simpa using hlen)
        (by rw [List.sum_cons] at hsum; linarith)]
      simp [List.replicate_succ]

/-- Claim C6: grow_out_soma on a path graph whose endpoint node 0 is the only
soma-labeled node.  (a) If max_dist exceeds the path's total physical length,
every node ends up labeled soma.  (b) If max_dist equals exactly the distance
from the soma endpoint to the second node and the following edge has positive
length, only that second node is relabeled and all further nodes keep their
labels. -/
theorem grow_out_soma_path_spec (rest : List ℤ) (dists : List ℚ) (maxDist : ℚ)
    (hnosoma : ∀ l ∈ rest, l ≠ 2) (hlen : dists.length = rest.length)
    (hpos : ∀ d ∈ dists, 0 ≤ d) :
    (dists.sum < maxDist →
      grow_out_soma_path (2 :: rest) dists maxDist = List.replicate (rest.length + 1) 2) ∧
    (∀ d0 d1 ds l1 ls, dists = d0 :: d1 :: ds → rest = l1 :: ls →
      maxDist = d0 → 0 < d1 →
      grow_out_soma_path (2 :: rest) dists maxDist = 2 :: 2 :: ls) := by
  constructor
  · intro hsum
    rw [grow_out_soma_path_cons]
    rw [growWalk_all maxDist dists rest 0 hpos hlen (by linarith)]
    simp [List.replicate_succ]
  · rintro d0 d1 ds l1 ls rfl rfl rfl hd1
    rw [grow_out_soma_path_cons, growWalk_cons]
    rw [if_neg (by simp)]
    have hhead : (if l1 ≠ 2 then (2 : ℤ) else l1) = 2 := by
      simp [hnosoma l1 (by simp)]
    rw [hhead]
    cases ls with
    | nil => rfl
    | cons l2 ls' =>
      rw [growWalk_cons]
      rw [if_pos (by linarith)]

/-- Witness for grow_out_soma_path_spec: the path 2 - 0 - 1 with consecutive
distances 1 and 1. -/
theorem grow_out_soma_path_spec_witness :
    (([(1 : ℚ), 1].sum < 3 →
      grow_out_soma_path [2, 0, 1] [1, 1] 3 = List.replicate ([(0 : ℤ), 1].length + 1) 2) ∧
    (∀ d0 d1 ds l1 ls, [(1 : ℚ), 1] = d0 :: d1 :: ds → [(0 : ℤ), 1] = l1 :: ls →
      (3 : ℚ) = d0 → 0 < d1 →
      grow_out_soma_path [2, 0, 1] [1, 1] 3 = 2 :: 2 :: ls)) :=
  grow_out_soma_path_spec [0, 1] [1, 1] 3 (by decide) (by decide) (by decide)

end Axoness

namespace Mapper

/-- One parsed axoness-info entry of calc_syn_dict
(syconn_deprecated/processing/mapper.py): the ids and compartment labels of
the two cells of one contact site.  The regex extraction
re.findall('(\d+)axoness(\-?\d+)', ax_info) is modelled as record fields. -/
structure AxEntry where
  cell1 : ℕ
  cell2 : ℕ
  ax1 : ℤ
  ax2 : ℤ
deriving DecidableEq

/-- The feature columns of one contact used by calc_syn_dict:
features[k, 1] (contact area), features[k, 2] (absolute cleft size),
features[k, 3] (relative cleft size). -/
structure SynFeat where
  cs_area : ℚ
  sj_size_abs : ℚ
  sj_size_rel : ℚ
deriving DecidableEq

/-- One synapse record of the connectivity dictionary. -/
structure SynRec where
  post_id : ℕ
  post_axoness : ℤ
  cs_area : ℚ
  sj_size_abs : ℚ
  sj_size_rel : ℚ
deriving DecidableEq

/-- The loop state of calc_syn_dict.  `pre_dict` is the presynaptic-id to
postsynaptic-id to record mapping (Python dicts modelled as association
lists in insertion order); `valid_syn` models valid_syn_array (row k cleared
to 0 when set to false). -/
structure SynState where
  val_syn_ixs : List ℕ
  pre_dict : List (ℕ × List (ℕ × SynRec))
  all_post_ids : List ℕ
  valid_syn : ℕ → Bool
  ax_ax_cnt : ℕ
  den_den_cnt : ℕ

def lookupA {α : Type} : List (ℕ × α) → ℕ → Option α
  | [], _ => none
  | (k, v) :: rest, key => if k = key then some v else lookupA rest key

def updateA {α : Type} : List (ℕ × α) → ℕ → (α → α) → List (ℕ × α)
  | [], _, _ => []
  | (k, v) :: rest, key, f =>
    if k = key then (k, f v) :: rest else (k, v) :: updateA rest key f

/-- The in-place merge of calc_syn_dict for an existing (pre, post) pair:
  syns[post_id]['cs_area'] += features[k, 1]
  syns[post_id]['sj_size_abs'] += features[k, 2]
(post_axoness and sj_size_rel keep the first contact's values). -/
def mergeRec (old : SynRec) (f : SynFeat) : SynRec :=
  { old with cs_area := old.cs_area + f.cs_area,
             sj_size_abs := old.sj_size_abs + f.sj_size_abs }

/-- The pre_dict update of calc_syn_dict for one kept contact. -/
def insertSyn (d : List (ℕ × List (ℕ × SynRec))) (pre post : ℕ) (f : SynFeat)
    (ax_post : ℤ) : List (ℕ × List (ℕ × SynRec)) :=
  match lookupA d pre with
  | some syns =>
    match lookupA syns post with
    | some _ => updateA d pre fun syns => updateA syns post fun old => mergeRec old f
    | none =>
      updateA d pre fun syns =>
        syns ++ [(post, ⟨post, ax_post, f.cs_area, f.sj_size_abs, f.sj_size_rel⟩)]
  | none => d ++ [(pre, [(post, ⟨post, ax_post, f.cs_area, f.sj_size_abs, f.sj_size_rel⟩)])]

/-- np.argmax([ax1, ax2]): the first maximal index, 0 when ax2 ≤ ax1, else 1. -/
def preIx (e : AxEntry) : ℕ := if e.ax2 ≤ e.ax1 then 0 else 1

def preId (e : AxEntry) : ℕ := if preIx e = 0 then e.cell1 else e.cell2

def postId (e : AxEntry) : ℕ := if preIx e = 0 then e.cell2 else e.cell1

def postAx (e : AxEntry) : ℤ := if preIx e = 0 then e.ax2 else e.ax1

/-- The body of calc_syn_dict's enumerate loop for contact index k:
  if cell_axoness[0] == cell_axoness[1]:
      if cell_axoness[0] == 1: ax_ax_cnt += 1
      else:
          den_den_cnt += 1
          valid_syn_array[k] = 0
          if not get_all: continue
  val_syn_ixs.append(k)
  pre_ix = np.argmax(cell_axoness); ...
  all_post_ids += [post_id]
  syn_dict = {...}
  if pre_id in pre_dict.keys(): (merge or insert)
  else: pre_dict[pre_id] = {post_id: syn_dict}
Only dendrite-dendrite contacts (equal labels other than 1) are skipped;
axon-axon contacts fall through to the processing code. -/
def calcSynStep (get_all : Bool) (k : ℕ) (e : AxEntry) (f : SynFeat)
    (st : SynState) : SynState :=
  let st1 :=
    if e.ax1 = e.ax2 then
      if e.ax1 = 1 then { st with ax_ax_cnt := st.ax_ax_cnt + 1 }
      else { st with den_den_cnt := st.den_den_cnt + 1,
                     valid_syn := fun j => if j = k then false else st.valid_syn j }
    else st
  if e.ax1 = e.ax2 ∧ e.ax1 ≠ 1 ∧ get_all = false then st1
  else
    { st1 with
      val_syn_ixs := st1.val_syn_ixs ++ [k],
      all_post_ids := st1.all_post_ids ++ [postId e],
      pre_dict := insertSyn st1.pre_dict (preId e) (postId e) f (postAx e) }

def calcSynGo (get_all : Bool) : ℕ → List (AxEntry × SynFeat) → SynState → SynState
  | _, [], st => st
  | k, (e, f) :: rest, st => calcSynGo get_all (k + 1) rest (calcSynStep get_all k e f st)

def initState : SynState := ⟨[], [], [], fun _ => true, 0, 0⟩

/-- calc_syn_dict from syconn_deprecated/processing/mapper.py over the parsed
contact entries (axoness_info entry k paired with feature row k). -/
def calc_syn_dict (entries : List (AxEntry × SynFeat)) (get_all : Bool) : SynState :=
  calcSynGo get_all 0 entries initState

end Mapper

namespace Mapper

theorem calcSynGo_cons (ga : Bool) (k : ℕ) (e : AxEntry) (f : SynFeat)
    (rest : List (AxEntry × SynFeat)) (st : SynState) :
    calcSynGo ga k ((e, f) :: rest) st =
      calcSynGo ga (k + 1) rest (calcSynStep ga k e f st) := rfl

/-- Evaluation of the loop body on a skipped dendrite-dendrite contact. -/
theorem calcSynStep_skip (k : ℕ) (e : AxEntry) (f : SynFeat) (st : SynState)
    (h1 : e.ax1 = e.ax2) (h2 : e.ax1 ≠ 1) :
    calcSynStep false k e f st =
      { st with den_den_cnt := st.den_den_cnt + 1,
                valid_syn := fun j => if j = k then false else st.valid_syn j } := by
  unfold calcSynStep
  rw [if_pos ⟨h1, h2, rfl⟩, if_pos h1, if_neg h2]

/-- Evaluation of the loop body on a kept axon-axon contact. -/
theorem calcSynStep_keep_axax (ga : Bool) (k : ℕ) (e : AxEntry) (f : SynFeat)
    (st : SynState) (h1 : e.ax1 = e.ax2) (h2 : e.ax1 = 1) :
    calcSynStep ga k e f st =
      { st with ax_ax_cnt := st.ax_ax_cnt + 1,
                val_syn_ixs := st.val_syn_ixs ++ [k],
                all_post_ids := st.all_post_ids ++ [postId e],
                pre_dict := insertSyn st.pre_dict (preId e) (postId e) f (postAx e) } := by
  unfold calcSynStep
  rw [if_neg (fun hc => hc.2.1 h2), if_pos h1, if_pos h2]

/-- Evaluation of the loop body on a kept mixed contact. -/
theorem calcSynStep_keep_mixed (ga : Bool) (k : ℕ) (e : AxEntry) (f : SynFeat)
    (st : SynState) (h1 : e.ax1 ≠ e.ax2) :
    calcSynStep ga k e f st =
      { st with val_syn_ixs := st.val_syn_ixs ++ [k],
                all_post_ids := st.all_post_ids ++ [postId e],
                pre_dict := insertSyn st.pre_dict (preId e) (postId e) f (postAx e) } := by
  unfold calcSynStep
  rw [if_neg (fun hc => h1 hc.1), if_neg h1]

/-- Any index collected by one loop-body application is an old index or the
current position. -/
theorem calcSynStep_ixs_subset (ga : Bool) (k : ℕ) (e : AxEntry) (f : SynFeat)
    (st : SynState) :
    ∀ i ∈ (calcSynStep ga k e f st).val_syn_ixs, i ∈ st.val_syn_ixs ∨ i = k := by
  intro i hi
  unfold calcSynStep at hi
  split_ifs at hi <;> dsimp only at hi <;>
    (try simp only [List.mem_append, List.mem_singleton] at hi) <;> tauto

/-- A loop-body application at index k leaves membership of any other index
in val_syn_ixs, and the valid flag of any other index, unchanged. -/
theorem calcSynStep_at_ne (ga : Bool) (k : ℕ) (e : AxEntry) (f : SynFeat)
    (st : SynState) (j : ℕ) (hj : j ≠ k) :
    (j ∈ (calcSynStep ga k e f st).val_syn_ixs ↔ j ∈ st.val_syn_ixs) ∧
    (calcSynStep ga k e f st).valid_syn j = st.valid_syn j := by
  unfold calcSynStep
  split_ifs <;> dsimp only <;>
    constructor <;>
    simp [List.mem_append, hj]

/-- Indices below the running counter are untouched by the remaining loop
iterations. -/
theorem calcSynGo_stable (ga : Bool) (rest : List (AxEntry × SynFeat)) (k0 : ℕ)
    (st : SynState) (j : ℕ) (hj : j < k0) :
    (j ∈ (calcSynGo ga k0 rest st).val_syn_ixs ↔ j ∈ st.val_syn_ixs) ∧
    (calcSynGo ga k0 rest st).valid_syn j = st.valid_syn j := by
  induction rest generalizing k0 st with
  | nil => exact ⟨Iff.rfl, rfl⟩
  | cons ef r ih =>
    obtain ⟨e, f⟩ := ef
    rw [calcSynGo_cons]
    have hstep := calcSynStep_at_ne ga k0 e f st j (by omega)
    have hrec := ih (k0 + 1) (calcSynStep ga k0 e f st) (by omega)
    exact ⟨hrec.1.trans hstep.1, hrec.2.trans hstep.2⟩

/-- The positional behaviour of the loop at the contact with index k, for a
run starting at counter k0 from a state whose collected indices are all
below k0: a dendrite-dendrite contact is excluded from the valid-synapse
index set and its valid flag cleared, an axon-axon contact is included. -/
theorem calcSynGo_at (entries : List (AxEntry × SynFeat)) (k k0 : ℕ)
    (st : SynState) (e : AxEntry) (f : SynFeat)
    (hk : entries[k]? = some (e, f)) (heq : e.ax1 = e.ax2)
    (hinv : ∀ j ∈ st.val_syn_ixs, j < k0) :
    (e.ax1 ≠ 1 →
      (k0 + k) ∉ (calcSynGo false k0 entries st).val_syn_ixs ∧
      (calcSynGo false k0 entries st).valid_syn (k0 + k) = false) ∧
    (e.ax1 = 1 →
      (k0 + k) ∈ (calcSynGo false k0 entries st).val_syn_ixs) := by
  induction entries generalizing k k0 st with
  | nil => simp at hk
  | cons ef r ih =>
    obtain ⟨e0, f0⟩ := ef
    cases k with
    | zero =>
      simp only [List.getElem?_cons_zero, Option.some.injEq, Prod.mk.injEq] at hk
      obtain ⟨rfl, rfl⟩ := hk
      rw [calcSynGo_cons]
      simp only [Nat.add_zero]
      constructor
      · intro hne
        rw [calcSynStep_skip k0 e0 f0 st heq hne]
        have hstable := calcSynGo_stable false r (k0 + 1)
          { st with den_den_cnt := st.den_den_cnt + 1,
                    valid_syn := fun j => if j = k0 then false else st.valid_syn j }
          k0 (by omega)
        refine ⟨?_, ?_⟩
        · intro hmem
          have hmem' : k0 ∈ st.val_syn_ixs := by simpa using hstable.1.mp hmem
          exact absurd (hinv k0 hmem') (by omega)
        · rw [hstable.2]
          simp
      · intro hax
        rw [calcSynStep_keep_axax false k0 e0 f0 st heq hax]
        have hstable := calcSynGo_stable false r (k0 + 1)
          { st with ax_ax_cnt := st.ax_ax_cnt + 1,
                    val_syn_ixs := st.val_syn_ixs ++ [k0],
                    all_post_ids := st.all_post_ids ++ [postId e0],
                    pre_dict := insertSyn st.pre_dict (preId e0) (postId e0) f0 (postAx e0) }
          k0 (by omega)
        exact hstable.1.mpr (by simp)
    | succ j =>
      simp only [List.getElem?_cons_succ] at hk
      have hinv' : ∀ i ∈ (calcSynStep false k0 e0 f0 st).val_syn_ixs, i < k0 + 1 := by
        intro i hi
        rcases calcSynStep_ixs_subset false k0 e0 f0 st i hi with hold | rfl
        · exact Nat.lt_succ_of_lt (hinv i hold)
        · omega
      have hres := ih j (k0 + 1) (calcSynStep false k0 e0 f0 st) hk hinv'
      rw [calcSynGo_cons]
      have harith : k0 + (j + 1) = k0 + 1 + j := by omega
      rw [harith]
      exact hres

end Mapper

namespace Mapper

theorem calcSynGo_nil (ga : Bool) (k : ℕ) (st : SynState) :
    calcSynGo ga k [] st = st := rfl

/-- The loop body of a kept contact (mixed, or axon-axon): val_syn_ixs gains
the index, all_post_ids the postsynaptic id, and pre_dict the record. -/
theorem calcSynStep_keep_proj (ga : Bool) (k : ℕ) (e : AxEntry) (f : SynFeat)
    (st : SynState) (h : ¬ (e.ax1 = e.ax2 ∧ e.ax1 ≠ 1)) :
    (calcSynStep ga k e f st).val_syn_ixs = st.val_syn_ixs ++ [k] ∧
    (calcSynStep ga k e f st).pre_dict =
      insertSyn st.pre_dict (preId e) (postId e) f (postAx e) ∧
    (calcSynStep ga k e f st).all_post_ids = st.all_post_ids ++ [postId e] := by
  by_cases hax : e.ax1 = e.ax2
  · have hax1 : e.ax1 = 1 := by
      by_contra hne
      exact h ⟨hax, hne⟩
    rw [calcSynStep_keep_axax ga k e f st hax hax1]
    exact ⟨rfl, rfl, rfl⟩
  · rw [calcSynStep_keep_mixed ga k e f st hax]
    exact ⟨rfl, rfl, rfl⟩

/-- Claim C7 (counterexample): an axon-axon contact (both parsed compartment
labels 1) with get_all False IS kept by calc_syn_dict: its index enters the
returned valid-synapse index set, a record for it enters the connectivity
dictionary (cell 1 designated presynaptic by np.argmax on the tied labels),
and its valid_syn_array row stays 1 — the claim demands that axon-axon
contacts be excluded like dendrite-dendrite ones. -/
theorem calc_syn_dict_axon_axon_cex :
    (calc_syn_dict [(⟨7, 9, 1, 1⟩, ⟨1, 2, 3⟩)] false).val_syn_ixs = [0] ∧
    (calc_syn_dict [(⟨7, 9, 1, 1⟩, ⟨1, 2, 3⟩)] false).pre_dict =
      [(7, [(9, ⟨9, 1, 1, 2, 3⟩)])] ∧
    (calc_syn_dict [(⟨7, 9, 1, 1⟩, ⟨1, 2, 3⟩)] false).valid_syn 0 = true :=
  ⟨rfl, rfl, rfl⟩

/-- Claim C7 (amended): in calc_syn_dict with get_all False, a contact whose
two parsed compartment labels are equal is excluded from the valid-synapse
set only when that shared label is not 1 (dendrite-dendrite and any other
equal non-axon pair): its index is left out of val_syn_ixs, its
valid_syn_array row is cleared, and it contributes no connectivity entry.
An axon-axon contact (shared label 1) is kept: its index enters val_syn_ixs
and it is entered into the dictionary with cell 1 as presynaptic. -/
theorem calc_syn_dict_same_compartment (entries : List (AxEntry × SynFeat))
    (k : ℕ) (e : AxEntry) (f : SynFeat)
    (hk : entries[k]? = some (e, f)) (heq : e.ax1 = e.ax2) :
    (e.ax1 ≠ 1 →
      k ∉ (calc_syn_dict entries false).val_syn_ixs ∧
      (calc_syn_dict entries false).valid_syn k = false ∧
      (calc_syn_dict [(e, f)] false).pre_dict = [] ∧
      (calc_syn_dict [(e, f)] false).all_post_ids = []) ∧
    (e.ax1 = 1 →
      k ∈ (calc_syn_dict entries false).val_syn_ixs ∧
      (calc_syn_dict [(e, f)] false).pre_dict =
        [(e.cell1, [(e.cell2,
          ⟨e.cell2, e.ax2, f.cs_area, f.sj_size_abs, f.sj_size_rel⟩)])]) := by
  have hmain := calcSynGo_at entries k 0 initState e f hk heq (by simp [initState])
  simp only [Nat.zero_add] at hmain
  have hpix : preIx e = 0 := by
    unfold preIx
    rw [if_pos (le_of_eq heq.symm)]
  constructor
  · intro hne
    refine ⟨(hmain.1 hne).1, (hmain.1 hne).2, ?_, ?_⟩
    · show (calcSynGo false 1 [] (calcSynStep false 0 e f initState)).pre_dict = []
      rw [calcSynGo_nil, calcSynStep_skip 0 e f initState heq hne]
      rfl
    · show (calcSynGo false 1 [] (calcSynStep false 0 e f initState)).all_post_ids = []
      rw [calcSynGo_nil, calcSynStep_skip 0 e f initState heq hne]
      rfl
  · intro hax
    refine ⟨hmain.2 hax, ?_⟩
    show (calcSynGo false 1 [] (calcSynStep false 0 e f initState)).pre_dict = _
    rw [calcSynGo_nil, calcSynStep_keep_axax false 0 e f initState heq hax]
    simp [insertSyn, lookupA, initState, preId, postId, postAx, hpix]

/-- Witness for calc_syn_dict_same_compartment: a single dendrite-dendrite
contact between cells 3 and 4. -/
theorem calc_syn_dict_same_compartment_witness :
    (((⟨3, 4, 0, 0⟩ : AxEntry).ax1 ≠ 1 →
      0 ∉ (calc_syn_dict [(⟨3, 4, 0, 0⟩, ⟨1, 1, 1⟩)] false).val_syn_ixs ∧
      (calc_syn_dict [(⟨3, 4, 0, 0⟩, ⟨1, 1, 1⟩)] false).valid_syn 0 = false ∧
      (calc_syn_dict [((⟨3, 4, 0, 0⟩ : AxEntry), (⟨1, 1, 1⟩ : SynFeat))] false).pre_dict = [] ∧
      (calc_syn_dict [((⟨3, 4, 0, 0⟩ : AxEntry), (⟨1, 1, 1⟩ : SynFeat))] false).all_post_ids = []) ∧
    ((⟨3, 4, 0, 0⟩ : AxEntry).ax1 = 1 →
      0 ∈ (calc_syn_dict [(⟨3, 4, 0, 0⟩, ⟨1, 1, 1⟩)] false).val_syn_ixs ∧
      (calc_syn_dict [((⟨3, 4, 0, 0⟩ : AxEntry), (⟨1, 1, 1⟩ : SynFeat))] false).pre_dict =
        [((⟨3, 4, 0, 0⟩ : AxEntry).cell1, [((⟨3, 4, 0, 0⟩ : AxEntry).cell2,
          ⟨(⟨3, 4, 0, 0⟩ : AxEntry).cell2, (⟨3, 4, 0, 0⟩ : AxEntry).ax2,
            (⟨1, 1, 1⟩ : SynFeat).cs_area, (⟨1, 1, 1⟩ : SynFeat).sj_size_abs,
            (⟨1, 1, 1⟩ : SynFeat).sj_size_rel⟩)])])) :=
  calc_syn_dict_same_compartment [(⟨3, 4, 0, 0⟩, ⟨1, 1, 1⟩)] 0 ⟨3, 4, 0, 0⟩ ⟨1, 1, 1⟩
    rfl rfl

/-- Claim C8: two kept contacts parsed to the same ordered (presynaptic,
postsynaptic) pair produce a single dictionary record for that pair, whose
cs_area is the sum of the two contact areas (feature column 1) and whose
sj_size_abs is the sum of the two absolute cleft sizes (feature column 2);
no duplicate entry for the pair is created, and both indices enter the
valid-synapse index set.  post_axoness and sj_size_rel keep the first
contact's values. -/
theorem calc_syn_dict_merges (e1 e2 : AxEntry) (f g : SynFeat)
    (h1 : ¬ (e1.ax1 = e1.ax2 ∧ e1.ax1 ≠ 1)) (h2 : ¬ (e2.ax1 = e2.ax2 ∧ e2.ax1 ≠ 1))
    (hpre : preId e2 = preId e1) (hpost : postId e2 = postId e1) :
    (calc_syn_dict [(e1, f), (e2, g)] false).pre_dict =
      [(preId e1, [(postId e1,
        ⟨postId e1, postAx e1, f.cs_area + g.cs_area, f.sj_size_abs + g.sj_size_abs,
          f.sj_size_rel⟩)])] ∧
    (calc_syn_dict [(e1, f), (e2, g)] false).val_syn_ixs = [0, 1] := by
  unfold calc_syn_dict
  rw [calcSynGo_cons, calcSynGo_cons, calcSynGo_nil]
  have p1 := calcSynStep_keep_proj false 0 e1 f initState h1
  have p2 := calcSynStep_keep_proj false 1 e2 g (calcSynStep false 0 e1 f initState) h2
  constructor
  · rw [p2.2.1, p1.2.1, hpre, hpost]
    simp [insertSyn, lookupA, updateA, mergeRec, initState]
  · rw [p2.1, p1.1]
    simp [initState]

/-- Witness for calc_syn_dict_merges: two axon-dendrite contacts from cell 4
onto cell 9. -/
theorem calc_syn_dict_merges_witness :
    (calc_syn_dict [((⟨4, 9, 1, 0⟩ : AxEntry), (⟨1, 2, 3⟩ : SynFeat)),
        ((⟨4, 9, 1, 0⟩ : AxEntry), (⟨10, 20, 30⟩ : SynFeat))] false).pre_dict =
      [(preId ⟨4, 9, 1, 0⟩, [(postId ⟨4, 9, 1, 0⟩,
        ⟨postId ⟨4, 9, 1, 0⟩, postAx ⟨4, 9, 1, 0⟩,
          (⟨1, 2, 3⟩ : SynFeat).cs_area + (⟨10, 20, 30⟩ : SynFeat).cs_area,
          (⟨1, 2, 3⟩ : SynFeat).sj_size_abs + (⟨10, 20, 30⟩ : SynFeat).sj_size_abs,
          (⟨1, 2, 3⟩ : SynFeat).sj_size_rel⟩)])] ∧
    (calc_syn_dict [((⟨4, 9, 1, 0⟩ : AxEntry), (⟨1, 2, 3⟩ : SynFeat)),
        ((⟨4, 9, 1, 0⟩ : AxEntry), (⟨10, 20, 30⟩ : SynFeat))] false).val_syn_ixs = [0, 1] :=
  calc_syn_dict_merges ⟨4, 9, 1, 0⟩ ⟨4, 9, 1, 0⟩ ⟨1, 2, 3⟩ ⟨10, 20, 30⟩
    (by decide) (by decide) rfl rfl

end Mapper

namespace Batchjob

/-- One super-segmentation object processed by
batchjob_calculate_spinehead_volume.py: whether its skeleton loads
(load_skeleton truthy, asserted by the script) and whether
extract_spinehead_volume_mesh completes without raising. -/
structure SSO where
  skeleton_exists : Bool
  extraction_ok : Bool
deriving DecidableEq

inductive JobError where
  | assertionError
  | extractionError
deriving DecidableEq

/-- The per-object loop of batchjob_calculate_spinehead_volume.py:
  for sso in ssd.get_super_segmentation_object(sso_ids):
      assert sso.load_skeleton(), ...
      try:
          extract_spinehead_volume_mesh(sso)
      except Exception:
          raise()
      sso.save_skeleton()
A failed assertion raises AssertionError; an extraction exception is
re-raised by the bare except clause (the `raise()` call itself raises), so
either way the exception propagates and the remaining objects are not
processed. -/
def spineheadLoop : List SSO → Except JobError Unit
  | [] => .ok ()
  | s :: rest =>
    if ¬ s.skeleton_exists then .error .assertionError
    else if ¬ s.extraction_ok then .error .extractionError
    else spineheadLoop rest

/-- The whole script body: run the loop, and only after it completes write
the empty marker (pkl.dump("") to path_out_file).  Returns the loop outcome
and whether the output-file artifact was produced. -/
def runSpineheadJob (ssos : List SSO) : Except JobError Unit × Bool :=
  match spineheadLoop ssos with
  | .ok () => (.ok (), true)
  | .error e => (.error e, false)

/-- Claim C9 (counterexample): a run whose single reconstruction raises
during spine-head extraction produces no output-file artifact: the exception
propagates out of the loop and the script aborts before the marker write, so
an external batch tracker observing output-file existence never sees this
job as complete — the claim asserts the artifact is produced on every run. -/
theorem spinehead_job_failure_no_marker :
    (runSpineheadJob [⟨true, false⟩]).2 = false ∧
    runSpineheadJob [⟨true, false⟩] = (.error .extractionError, false) :=
  ⟨rfl, rfl⟩

/-- Claim C9 (amended): the spine-head volume batch job writes its
output-file marker exactly on the runs in which every reconstruction's
skeleton loads and every extraction completes without raising; any assertion
failure or extraction exception aborts the job before the marker is
written. -/
theorem spinehead_job_marker_iff (ssos : List SSO) :
    (runSpineheadJob ssos).2 = true ↔
      ∀ s ∈ ssos, s.skeleton_exists = true ∧ s.extraction_ok = true := by
  induction ssos with
  | nil => simp [runSpineheadJob, spineheadLoop]
  | cons a rest ih =>
    constructor
    · intro h
      unfold runSpineheadJob spineheadLoop at h
      by_cases hsk : a.skeleton_exists
      · by_cases hex : a.extraction_ok
        · rw [if_neg (by simp [hsk]), if_neg (by simp [hex])] at h
          intro s hs
          rcases List.mem_cons.mp hs with rfl | hs
          · exact ⟨hsk, hex⟩
          · refine (ih.mp ?_) s hs
            unfold runSpineheadJob
            exact h
        · rw [if_neg (by simp [hsk]), if_pos (by simp [hex])] at h
          simp at h
      · rw [if_pos (by simp [hsk])] at h
        simp at h
    · intro h
      have ha := h a (by simp)
      have hrest : (runSpineheadJob rest).2 = true :=
        ih.mpr fun s hs => h s (List.mem_cons_of_mem _ hs)
      unfold runSpineheadJob spineheadLoop
      rw [if_neg (by simp [ha.1]), if_neg (by simp [ha.2])]
      unfold runSpineheadJob at hrest
      exact hrest

end Batchjob
